import Mathlib

/-!
Verification of the LSB steganography core of the D-IBAN repository: the bit
queue, the pixel channel reader and writer, the frame layout and the
dual-format (modern and legacy) decoder.  All executable definitions below are
translated from the steganography section of the JavaScript source
(BitQueue, encodeLSB, PixelBitReader, encodeAddressInImage,
decodeAddressFromImage).
-/

set_option maxHeartbeats 1000000

namespace DIBAN

/-- One RGBA pixel of the flat pixel buffer: four 8-bit channel values.
In the source the buffer is a flat Uint8ClampedArray of length 4 times
the pixel count; here a buffer is a list of pixels, one entry per group
of four consecutive array cells. -/
structure Pixel where
  r : Nat
  g : Nat
  b : Nat
  a : Nat
deriving DecidableEq, Repr

/-- The FIFO bit queue of the source (class BitQueue): a list of bits,
head of the list is the next bit to pop. -/
abbrev BitQueue := List Nat

/-- One step of the source accumulator `out = (out << 1) | bit`: the
JavaScript bitwise operators coerce both operands to signed 32-bit
integers, so the accumulated bit pattern wraps at 2^32.  The state is
kept as the 32-bit two's-complement bit pattern, a Nat below 2^32; the
signed number the program actually returns is `int32OfPattern` of it. -/
def shlOrStep (out b : Nat) : Nat :=
  ((out <<< 1) % 4294967296) ||| (b % 4294967296)

/-- The signed 32-bit number denoted by a two's-complement bit
pattern: this is the JavaScript value of the accumulator. -/
def int32OfPattern (w : Nat) : Int :=
  if w < 2147483648 then (w : Int) else (w : Int) - 4294967296

namespace BitQueue

/-- Source pushBitsFromValue: append the low `count` bits of `value`,
most significant of the `count` first. -/
def pushBitsFromValue (q : BitQueue) (value count : Nat) : BitQueue :=
  q ++ (List.range count).map (fun i => (value >>> (count - 1 - i)) &&& 1)

/-- Source pushByte: append the 8 bits of a byte, most significant first. -/
def pushByte (q : BitQueue) (byte : Nat) : BitQueue :=
  pushBitsFromValue q byte 8

/-- The shift-accumulate loop inside popBits: pop one bit at a time and
accumulate with the wrapping 32-bit step `out = (out << 1) | bit`. -/
def popLoop : Nat → Nat → List Nat → Nat × List Nat
  | 0, out, q => (out, q)
  | _ + 1, out, [] => (out, [])
  | n + 1, out, b :: q => popLoop n (shlOrStep out b) q

/-- Source popBits: remove and return the next `n` bits as an unsigned
value (first popped bit is the most significant); `none` models the
explicit null returned when fewer than `n` bits remain. -/
def popBits (q : BitQueue) (n : Nat) : Option (Nat × BitQueue) :=
  if q.length < n then none
  else some (popLoop n 0 q)

/-- Source size: number of bits currently queued. -/
def size (q : BitQueue) : Nat := q.length

end BitQueue

/-- Value of a bit list read MSB-first; this is the number the popBits
loop reconstructs from the popped bits. -/
def bitsToNat (l : List Nat) : Nat :=
  l.foldl (fun out b => (out <<< 1) ||| b) 0

/-- One iteration of the encodeLSB write: put the 3-bit group into the
low bits of R, G and B and force the alpha channel to 255. -/
def writePixel (p : Pixel) (bits : Nat) : Pixel :=
  ⟨(p.r &&& 0xFE) ||| ((bits >>> 2) &&& 1),
   (p.g &&& 0xFE) ||| ((bits >>> 1) &&& 1),
   (p.b &&& 0xFE) ||| (bits &&& 1),
   255⟩

/-- Pop a single bit, treating an exhausted queue as the padding bit 0;
this is the `b === null ? 0 : b` case of the encodeLSB loop. -/
def pop1 (q : BitQueue) : Nat × BitQueue :=
  match BitQueue.popBits q 1 with
  | some r => r
  | none => (0, q)

/-- The encodeLSB loop body: pop up to 3 bits, padding missing low-order
bits with zeros exactly as the source does (its `bits = (bits << 1) | b`
accumulator uses the same wrapping 32-bit step). -/
def takeUpTo3 (q : BitQueue) : Nat × BitQueue :=
  if 3 ≤ q.length then
    match BitQueue.popBits q 3 with
    | some r => r
    | none => (0, q)
  else
    let s0 := pop1 q
    let s1 := pop1 s0.2
    let s2 := pop1 s1.2
    (shlOrStep (shlOrStep (shlOrStep 0 s0.1) s1.1) s2.1, s2.2)

/-- The encodeLSB pixel loop: while the queue is non-empty write one
pixel per iteration; `none` models the in-loop Image too small for data
failure, raised when the queue is non-empty and the pixels are spent. -/
def encodeLSBGo : BitQueue → List Pixel → Option (List Pixel)
  | q, [] => if q.length = 0 then some [] else none
  | q, p :: rest =>
    if q.length = 0 then some (p :: rest)
    else
      let s := takeUpTo3 q
      (encodeLSBGo s.2 rest).map (fun tail => writePixel p s.1 :: tail)

/-- Source encodeLSB: queue all data bytes MSB-first, then write 3 bits
per pixel into the R, G and B low bits, setting alpha to 255 on every
written pixel. -/
def encodeLSB (pixels : List Pixel) (dataBytes : List Nat) : Option (List Pixel) :=
  encodeLSBGo (dataBytes.foldl BitQueue.pushByte []) pixels

/-- The 3-bit group the reader extracts from one pixel: R, G, B low
bits, MSB first, as in the source `(b0 << 2) | (b1 << 1) | b2`. -/
def pixelBits (p : Pixel) : Nat :=
  (((p.r &&& 1) <<< 2) ||| ((p.g &&& 1) <<< 1)) ||| (p.b &&& 1)

/-- Source PixelBitReader._fillBits: consume pixels, 3 bits each, until
at least `n` bits are queued; `none` when the pixels run out first. -/
def fillBits (n : Nat) : List Pixel → BitQueue → Option (List Pixel × BitQueue)
  | [], q => if n ≤ q.length then some ([], q) else none
  | p :: rest, q =>
    if n ≤ q.length then some (p :: rest, q)
    else fillBits n rest (BitQueue.pushBitsFromValue q (pixelBits p) 3)

/-- Source PixelBitReader: the sequential, non-rewindable pixel cursor.
The remaining pixel list plays the role of the pixel index. -/
structure PixelBitReader where
  pixels : List Pixel
  q : BitQueue
deriving DecidableEq, Repr

/-- Source PixelBitReader.popBits: fill then pop; `none` models the null
returned when the pixels are exhausted. -/
def PixelBitReader.popBits (rd : PixelBitReader) (n : Nat) : Option (Nat × PixelBitReader) :=
  match fillBits n rd.pixels rd.q with
  | none => none
  | some fq =>
    match BitQueue.popBits fq.2 n with
    | none => none
    | some vq => some (vq.1, ⟨fq.1, vq.2⟩)

/-- Source PixelBitReader.popByte. -/
def PixelBitReader.popByte (rd : PixelBitReader) : Option (Nat × PixelBitReader) :=
  rd.popBits 8

/-- Source PixelBitReader.readBytes: read `count` bytes; `none` models
the Not enough data in image while reading bytes failure. -/
def readBytes : PixelBitReader → Nat → Option (List Nat × PixelBitReader)
  | rd, 0 => some ([], rd)
  | rd, n + 1 =>
    match rd.popByte with
    | none => none
    | some brd =>
      match readBytes brd.2 n with
      | none => none
      | some bsrd => some (brd.1 :: bsrd.1, bsrd.2)

/-- The magic marker bytes, ASCII DOGE. -/
def magicMarker : List Nat := [0x44, 0x4F, 0x47, 0x45]

/-- The distinguishable failures of decodeAddressFromImage: the
truncated carrier error thrown by readBytes, the magic mismatch error
and the invalid data length error of the modern branch. -/
inductive DecodeError where
  | truncated
  | magicNotFound
  | invalidLength
deriving DecidableEq, Repr

/-- Outcome of the frame parsing of decodeAddressFromImage, before the
external byte codecs interpret the payload: the detected format, the
type tag of the modern format and the raw payload bytes. -/
inductive Frame where
  | modern (typeTag : Nat) (payload : List Nat)
  | legacy (payload : List Nat)
deriving DecidableEq, Repr

/-- Frame parsing of source decodeAddressFromImage: read and check the
magic with a first cursor, peek 3 bytes past the magic with a second
fresh cursor, classify modern versus legacy, and read the payload
(modern: continue on the second cursor; legacy: third fresh cursor
advanced past magic and the two length bytes). -/
def decodeAddressFromImage (pixels : List Pixel) : Except DecodeError Frame :=
  match readBytes ⟨pixels, []⟩ 4 with
  | none => .error .truncated
  | some magicRd =>
    if magicRd.1 = magicMarker then
      match readBytes (⟨pixels, []⟩ : PixelBitReader) 4 with
      | none => .error .truncated
      | some skipRd =>
        match readBytes skipRd.2 3 with
        | none => .error .truncated
        | some peekRd =>
          match peekRd.1 with
          | [firstByte, lenHi, lenLo] =>
            let possibleLen := (lenHi <<< 8) ||| lenLo
            if (firstByte = 0x00 ∨ firstByte = 0x01) ∧
                (1 ≤ possibleLen ∧ possibleLen ≤ 2000) then
              let dataLength := possibleLen
              if dataLength < 1 ∨ 2000 < dataLength then .error .invalidLength
              else
                match readBytes peekRd.2 dataLength with
                | none => .error .truncated
                | some dataRd => .ok (.modern firstByte dataRd.1)
            else
              let dataLength := (firstByte <<< 8) ||| lenHi
              match readBytes (⟨pixels, []⟩ : PixelBitReader) 4 with
              | none => .error .truncated
              | some skip3 =>
                match readBytes skip3.2 2 with
                | none => .error .truncated
                | some skip3b =>
                  match readBytes skip3b.2 dataLength with
                  | none => .error .truncated
                  | some dataRd => .ok (.legacy dataRd.1)
          | _ => .error .truncated
    else .error .magicNotFound

/-- The failures of encodeAddressInImage: the capacity check error
(Image too small, need N pixels) raised before any write, and the
in-loop encodeLSB error (Image too small for data). -/
inductive EncodeError where
  | carrierTooSmall
  | dataOverflow
deriving DecidableEq, Repr

/-- The modern frame bytes assembled by encodeAddressInImage:
MAGIC(4), TYPE(1), LENGTH(2, big-endian), DATA. -/
def buildFrame (typeTag : Nat) (dataBytes : List Nat) : List Nat :=
  magicMarker ++
    [typeTag, (dataBytes.length >>> 8) &&& 0xFF, dataBytes.length &&& 0xFF] ++
    dataBytes

/-- Pixels needed for a modern frame with a payload of the given byte
length: the ceiling of (4 + 1 + 2 + payloadLen) * 8 / 3. -/
def pixelsNeeded (payloadLen : Nat) : Nat :=
  ((4 + 1 + 2 + payloadLen) * 8 + 2) / 3

/-- Source encodeAddressInImage, from the point where the payload bytes
and the type byte are fixed: build the frame, run the capacity check
(refusing before any pixel is touched) and embed with encodeLSB. -/
def encodeAddressInImage (pixels : List Pixel) (typeTag : Nat) (dataBytes : List Nat) :
    Except EncodeError (List Pixel) :=
  let full := buildFrame typeTag dataBytes
  let totalBits := full.length * 8
  let needed := (totalBits + 2) / 3
  if pixels.length < needed then .error .carrierTooSmall
  else
    match encodeLSB pixels full with
    | none => .error .dataOverflow
    | some out => .ok out

/-- The bit stream a reader extracts from a pixel buffer: the low bits
of R, G and B of every pixel in order. -/
def lsbStream : List Pixel → List Nat
  | [] => []
  | p :: ps => (p.r &&& 1) :: (p.g &&& 1) :: (p.b &&& 1) :: lsbStream ps

/-- The full bit stream still ahead of a reader: its queued bits then
the bits of its remaining pixels. -/
def streamOf (rd : PixelBitReader) : List Nat :=
  rd.q ++ lsbStream rd.pixels

/-- First `n` bytes of a bit stream, each byte 8 bits MSB-first. -/
def bytesOfBits : List Nat → Nat → List Nat
  | _, 0 => []
  | l, n + 1 => bitsToNat (l.take 8) :: bytesOfBits (l.drop 8) n

/-- The 8 bits of a byte, most significant first. -/
def byteBits (b : Nat) : List Nat :=
  (List.range 8).map (fun i => (b >>> (7 - i)) &&& 1)

/-- The bit stream of a byte list, MSB-first within each byte. -/
def bytesBits : List Nat → List Nat
  | [] => []
  | b :: bs => byteBits b ++ bytesBits bs

/-- The modern-format heuristic of the FormatResolver, applied to the
three bytes peeked after the magic. -/
def modernCond (b0 b1 b2 : Nat) : Prop :=
  (b0 = 0x00 ∨ b0 = 0x01) ∧ (1 ≤ (b1 <<< 8) ||| b2 ∧ (b1 <<< 8) ||| b2 ≤ 2000)

instance (b0 b1 b2 : Nat) : Decidable (modernCond b0 b1 b2) := by
  unfold modernCond; infer_instance

/-! ### Basic facts about the bit queue -/

/-- On genuine bit values and at most 32 pops the wrapping 32-bit step
never actually wraps, so one step is plain shift-and-or. -/
lemma shlOrStep_eq (out b k : Nat) (hout : out < 2 ^ k) (hk : k + 1 ≤ 32)
    (hb : b ≤ 1) :
    shlOrStep out b = (out <<< 1) ||| b := by
  unfold shlOrStep
  have h1 : out <<< 1 = out * 2 := by
    rw [Nat.shiftLeft_eq]
  have h2 : out * 2 < 2 ^ (k + 1) := by
    rw [Nat.pow_succ]
    omega
  have h3 : (2 : Nat) ^ (k + 1) ≤ 2 ^ 32 := Nat.pow_le_pow_right (by omega) hk
  have h4 : out <<< 1 < 4294967296 := by
    rw [h1]
    calc out * 2 < 2 ^ (k + 1) := h2
      _ ≤ 2 ^ 32 := h3
      _ = 4294967296 := by norm_num
  rw [Nat.mod_eq_of_lt h4, Nat.mod_eq_of_lt (by omega)]

lemma popLoop_spec :
    ∀ (n : Nat) (q : List Nat) (out : Nat), n ≤ q.length →
      (∀ b ∈ q, b ≤ 1) → n ≤ 32 → out < 2 ^ (32 - n) →
      BitQueue.popLoop n out q =
        ((q.take n).foldl (fun o b => (o <<< 1) ||| b) out, q.drop n) := by
  intro n
  induction n with
  | zero => intro q out _ _ _ _; simp [BitQueue.popLoop]
  | succ m ih =>
    intro q out h hbits hn hout
    match q with
    | [] => simp at h
    | b :: q' =>
      simp only [List.length_cons, Nat.succ_le_succ_iff] at h
      have hb : b ≤ 1 := hbits b (by simp)
      have hbits' : ∀ x ∈ q', x ≤ 1 := fun x hx => hbits x (by simp [hx])
      have hk : (32 - (m + 1)) + 1 = 32 - m := by omega
      have hstep : shlOrStep out b = (out <<< 1) ||| b :=
        shlOrStep_eq out b (32 - (m + 1)) hout (by omega) hb
      have hout' : (out <<< 1) ||| b < 2 ^ (32 - m) := by
        apply Nat.or_lt_two_pow
        · rw [Nat.shiftLeft_eq, ← hk, Nat.pow_succ]
          norm_num
          omega
        · calc b ≤ 1 := hb
            _ < 2 ^ 1 := by norm_num
            _ ≤ 2 ^ (32 - m) := Nat.pow_le_pow_right (by omega) (by omega)
      simp only [BitQueue.popLoop, List.take_succ_cons, List.drop_succ_cons,
        List.foldl_cons, hstep]
      exact ih q' ((out <<< 1) ||| b) h hbits' (by omega) hout'

/-- The popBits success case: with genuine bit entries, at most 32 bits
popped, and at least `n` bits queued, the first `n` bits are removed in
FIFO order and assembled MSB-first with no 32-bit wrap. -/
lemma popBits_spec (q : BitQueue) (n : Nat) (hbits : ∀ b ∈ q, b ≤ 1)
    (hn : n ≤ 32) (h : n ≤ q.length) :
    BitQueue.popBits q n = some (bitsToNat (q.take n), q.drop n) := by
  unfold BitQueue.popBits
  rw [if_neg (by omega)]
  rw [popLoop_spec n q 0 h hbits hn (Nat.two_pow_pos (32 - n))]
  rfl

/-- The popBits failure case: fewer than `n` bits queued yields the
explicit null signal, with no exception. -/
lemma popBits_none (q : BitQueue) (n : Nat) (h : q.length < n) :
    BitQueue.popBits q n = none := by
  unfold BitQueue.popBits
  rw [if_pos h]

lemma pushBitsFromValue_three (q : BitQueue) (v : Nat) :
    BitQueue.pushBitsFromValue q v 3 =
      q ++ [(v >>> 2) &&& 1, (v >>> 1) &&& 1, v &&& 1] := by
  simp [BitQueue.pushBitsFromValue, List.range_succ]

lemma pushByte_eq (q : BitQueue) (b : Nat) :
    BitQueue.pushByte q b = q ++ byteBits b := by
  simp only [BitQueue.pushByte, BitQueue.pushBitsFromValue, byteBits]

lemma byteBits_length (b : Nat) : (byteBits b).length = 8 := by
  simp [byteBits]

lemma byteBits_le_one (b : Nat) : ∀ x ∈ byteBits b, x ≤ 1 := by
  intro x hx
  simp only [byteBits, List.mem_map] at hx
  obtain ⟨i, _, rfl⟩ := hx
  exact Nat.and_le_right

set_option maxRecDepth 4000 in
lemma bitsToNat_byteBits (b : Nat) (hb : b < 256) : bitsToNat (byteBits b) = b := by
  revert hb
  revert b
  decide

lemma foldl_pushByte (bs : List Nat) :
    ∀ q : BitQueue, bs.foldl BitQueue.pushByte q = q ++ bytesBits bs := by
  induction bs with
  | nil => intro q; simp [bytesBits]
  | cons b bs ih =>
    intro q
    simp only [List.foldl_cons, bytesBits, ih, pushByte_eq, List.append_assoc]

lemma bytesBits_length (bs : List Nat) : (bytesBits bs).length = 8 * bs.length := by
  induction bs with
  | nil => simp [bytesBits]
  | cons b bs ih =>
    simp [bytesBits, ih, byteBits_length]
    ring

lemma bytesBits_le_one (bs : List Nat) : ∀ x ∈ bytesBits bs, x ≤ 1 := by
  induction bs with
  | nil => simp [bytesBits]
  | cons b bs ih =>
    intro x hx
    simp only [bytesBits, List.mem_append] at hx
    rcases hx with hx | hx
    · exact byteBits_le_one b x hx
    · exact ih x hx

lemma bytesBits_append (xs ys : List Nat) :
    bytesBits (xs ++ ys) = bytesBits xs ++ bytesBits ys := by
  induction xs with
  | nil => simp [bytesBits]
  | cons b bs ih => simp [bytesBits, ih]

/-! ### Basic facts about the LSB stream -/

lemma lsbStream_length (ps : List Pixel) : (lsbStream ps).length = 3 * ps.length := by
  induction ps with
  | nil => simp [lsbStream]
  | cons p ps ih =>
    simp [lsbStream, ih]
    ring

lemma lsbStream_append (xs ys : List Pixel) :
    lsbStream (xs ++ ys) = lsbStream xs ++ lsbStream ys := by
  induction xs with
  | nil => simp [lsbStream]
  | cons p ps ih => simp [lsbStream, ih]

lemma lsbStream_le_one (ps : List Pixel) : ∀ b ∈ lsbStream ps, b ≤ 1 := by
  induction ps with
  | nil => simp [lsbStream]
  | cons p rest ih =>
    intro b hb
    simp only [lsbStream, List.mem_cons] at hb
    rcases hb with rfl | rfl | rfl | hb
    · exact Nat.and_le_right
    · exact Nat.and_le_right
    · exact Nat.and_le_right
    · exact ih b hb

/-! ### Byte extraction from bit streams -/

lemma bytesOfBits_length (l : List Nat) (n : Nat) : (bytesOfBits l n).length = n := by
  induction n generalizing l with
  | zero => simp [bytesOfBits]
  | succ m ih => simp [bytesOfBits, ih]

lemma bytesOfBits_add (l : List Nat) (m n : Nat) :
    bytesOfBits l (m + n) = bytesOfBits l m ++ bytesOfBits (l.drop (8 * m)) n := by
  induction m generalizing l with
  | zero => simp [bytesOfBits]
  | succ k ih =>
    have hmn : k + 1 + n = (k + n) + 1 := by omega
    rw [hmn]
    simp only [bytesOfBits, ih (l.drop 8), List.cons_append, List.drop_drop]
    have h8 : 8 + 8 * k = 8 * (k + 1) := by ring
    rw [h8]

lemma bytesOfBits_bytesBits (data : List Nat) :
    ∀ (n : Nat) (extra : List Nat), n ≤ data.length → (∀ b ∈ data, b < 256) →
      bytesOfBits (bytesBits data ++ extra) n = data.take n := by
  induction data with
  | nil =>
    intro n extra hn _
    simp at hn
    subst hn
    simp [bytesOfBits]
  | cons b bs ih =>
    intro n extra hn hlt
    match n with
    | 0 => simp [bytesOfBits]
    | m + 1 =>
      simp only [List.length_cons, Nat.succ_le_succ_iff] at hn
      have hb : b < 256 := hlt b (by simp)
      have hbs : ∀ x ∈ bs, x < 256 := fun x hx => hlt x (by simp [hx])
      simp only [bytesOfBits, bytesBits, List.append_assoc, List.take_succ_cons]
      have h1 : (byteBits b ++ (bytesBits bs ++ extra)).take 8 = byteBits b :=
        List.take_left' (byteBits_length b)
      have h2 : (byteBits b ++ (bytesBits bs ++ extra)).drop 8 = bytesBits bs ++ extra :=
        List.drop_left' (byteBits_length b)
      rw [h1, h2, bitsToNat_byteBits b hb, ih m extra hn hbs]

lemma bytesBits_drop_bytes (data : List Nat) :
    ∀ (j : Nat) (extra : List Nat), j ≤ data.length →
      (bytesBits data ++ extra).drop (8 * j) = bytesBits (data.drop j) ++ extra := by
  induction data with
  | nil =>
    intro j extra hj
    simp at hj
    subst hj
    simp
  | cons b bs ih =>
    intro j extra hj
    match j with
    | 0 => simp
    | k + 1 =>
      simp only [List.length_cons, Nat.succ_le_succ_iff] at hj
      have h8 : 8 * (k + 1) = 8 + 8 * k := by ring
      rw [h8, ← List.drop_drop]
      simp only [bytesBits, List.append_assoc]
      rw [List.drop_append_of_le_length (by rw [byteBits_length])]
      have hnil : (byteBits b).drop 8 = [] := by
        apply List.drop_of_length_le
        rw [byteBits_length]
      rw [hnil, List.nil_append, List.drop_succ_cons]
      exact ih k extra hj

/-! ### Low-level bit manipulation facts -/

/-- Writing a bit into a masked channel leaves exactly that bit in the
low position: the reader gets back what the writer put in. -/
lemma write_read_bit (v x : Nat) (hx : x ≤ 1) : ((v &&& 0xFE) ||| x) &&& 1 = x := by
  rw [Nat.and_distrib_right, Nat.and_assoc]
  have h1 : (0xFE &&& 1 : Nat) = 0 := by decide
  rw [h1, Nat.and_zero, Nat.zero_or]
  interval_cases x <;> decide

lemma extract3_of_bits (b0 b1 b2 : Nat) (h0 : b0 ≤ 1) (h1 : b1 ≤ 1) (h2 : b2 ≤ 1) :
    ((bitsToNat [b0, b1, b2] >>> 2) &&& 1) = b0 ∧
    ((bitsToNat [b0, b1, b2] >>> 1) &&& 1) = b1 ∧
    (bitsToNat [b0, b1, b2] &&& 1) = b2 := by
  interval_cases b0 <;> interval_cases b1 <;> interval_cases b2 <;> decide

/-- Reading the three data bits back out of a written pixel recovers the
3-bit group, independent of the carrier pixel content. -/
lemma lsb_writePixel (p : Pixel) (b0 b1 b2 : Nat)
    (h0 : b0 ≤ 1) (h1 : b1 ≤ 1) (h2 : b2 ≤ 1) :
    lsbStream [writePixel p (bitsToNat [b0, b1, b2])] = [b0, b1, b2] := by
  obtain ⟨e0, e1, e2⟩ := extract3_of_bits b0 b1 b2 h0 h1 h2
  simp only [lsbStream, writePixel]
  rw [write_read_bit _ _ (by rw [e0] at *; exact h0),
      write_read_bit _ _ (by rw [e1] at *; exact h1),
      write_read_bit _ _ (by rw [e2] at *; exact h2)]
  rw [e0, e1, e2]

/-- The 3-bit group of a pixel decomposes back into the three channel
low bits. -/
lemma pixelBits_extract (p : Pixel) :
    [(pixelBits p >>> 2) &&& 1, (pixelBits p >>> 1) &&& 1, pixelBits p &&& 1] =
      [p.r &&& 1, p.g &&& 1, p.b &&& 1] := by
  have hr : p.r &&& 1 ≤ 1 := Nat.and_le_right
  have hg : p.g &&& 1 ≤ 1 := Nat.and_le_right
  have hb : p.b &&& 1 ≤ 1 := Nat.and_le_right
  unfold pixelBits
  generalize p.r &&& 1 = x at hr ⊢
  generalize p.g &&& 1 = y at hg ⊢
  generalize p.b &&& 1 = z at hb ⊢
  interval_cases x <;> interval_cases y <;> interval_cases z <;> decide

/-- Rebuilding a 16-bit big-endian length from its two bytes, as the
decoder computes it from the bytes the encoder wrote. -/
lemma len16_roundtrip (L : Nat) (h : L < 65536) :
    ((((L >>> 8) &&& 0xFF) <<< 8) ||| (L &&& 0xFF)) = L := by
  have h255 : (0xFF : Nat) = 2 ^ 8 - 1 := by norm_num
  have hmod : L &&& 0xFF = L % 256 := by
    rw [h255, Nat.and_pow_two_sub_one_eq_mod]
  have hdiv : L >>> 8 = L / 256 := by
    rw [Nat.shiftRight_eq_div_pow]
  have hlt : L / 256 < 256 := by omega
  have hhi : (L >>> 8) &&& 0xFF = L / 256 := by
    rw [hdiv, h255, Nat.and_pow_two_sub_one_of_lt_two_pow (by norm_num at hlt ⊢; omega)]
  rw [hhi, hmod, Nat.shiftLeft_eq]
  have hor := Nat.mul_add_lt_is_or (show L % 256 < 2 ^ 8 by omega) (L / 256)
  rw [Nat.mul_comm (L / 256) (2 ^ 8)]
  rw [← hor]
  omega

/-- List version of the pixel write and read round trip, for an
arbitrary 3-bit group given as a list. -/
lemma lsb_writePixel_list (p : Pixel) (l : List Nat) (hl : l.length = 3)
    (hb : ∀ x ∈ l, x ≤ 1) :
    lsbStream [writePixel p (bitsToNat l)] = l := by
  match l, hl with
  | [b0, b1, b2], _ =>
    exact lsb_writePixel p b0 b1 b2 (hb b0 (by simp)) (hb b1 (by simp)) (hb b2 (by simp))

/-! ### The encodeLSB loop -/

/-- One loop iteration on genuine bit values pops three bits, padding
the low side with zeros when fewer than three remain. -/
lemma takeUpTo3_spec (q : BitQueue) (hq : q ≠ []) (hbits : ∀ b ∈ q, b ≤ 1) :
    takeUpTo3 q =
      (bitsToNat (q.take 3 ++ List.replicate (3 - q.length) 0), q.drop 3) := by
  by_cases h3 : 3 ≤ q.length
  · unfold takeUpTo3
    rw [if_pos h3, popBits_spec q 3 hbits (by omega) h3]
    rw [Nat.sub_eq_zero_of_le h3]
    simp
  · match q with
    | [] => exact absurd rfl hq
    | [b] =>
      have hb : b ≤ 1 := hbits b (by simp)
      interval_cases b <;> decide
    | [b, c] =>
      have hb : b ≤ 1 := hbits b (by simp)
      have hc : c ≤ 1 := hbits c (by simp)
      interval_cases b <;> interval_cases c <;> decide
    | b :: c :: d :: t => exact absurd (by simp) h3

/-- An empty queue leaves the pixel list untouched. -/
lemma encodeGo_nil (ps : List Pixel) : encodeLSBGo [] ps = some ps := by
  cases ps <;> simp [encodeLSBGo]

/-- Shape of a successful encodeLSB run: the output has the same pixel
count, every pixel past the written prefix is identical to the input,
and every written pixel has alpha 255. -/
lemma encodeGo_shape :
    ∀ (ps : List Pixel) (q : BitQueue) (out : List Pixel),
      (∀ b ∈ q, b ≤ 1) →
      encodeLSBGo q ps = some out →
      out.length = ps.length ∧
      out.drop ((q.length + 2) / 3) = ps.drop ((q.length + 2) / 3) ∧
      ∀ p ∈ out.take ((q.length + 2) / 3), p.a = 255 := by
  intro ps
  induction ps with
  | nil =>
    intro q out _ h
    simp only [encodeLSBGo] at h
    split at h
    · next hq =>
      obtain rfl : ([] : List Pixel) = out := Option.some.inj h
      simp
    · exact absurd h (by simp)
  | cons p rest ih =>
    intro q out hbits h
    simp only [encodeLSBGo] at h
    split at h
    · next hq =>
      obtain rfl : p :: rest = out := Option.some.inj h
      simp [hq]
    · next hq =>
      rw [Option.map_eq_some'] at h
      obtain ⟨out', hout', rfl⟩ := h
      have hqne : q ≠ [] := fun hnil => hq (by simp [hnil])
      rw [takeUpTo3_spec q hqne hbits] at hout'
      simp only at hout'
      have hbits' : ∀ b ∈ q.drop 3, b ≤ 1 := fun b hb =>
        hbits b (List.mem_of_mem_drop hb)
      obtain ⟨hlen, hdrop, htake⟩ := ih (q.drop 3) out' hbits' hout'
      have hq1 : 1 ≤ q.length := by
        cases q with
        | nil => exact absurd rfl hqne
        | cons a t => simp
      have hk : (q.length + 2) / 3 = ((q.drop 3).length + 2) / 3 + 1 := by
        rw [List.length_drop]
        omega
      refine ⟨by simpa using hlen, ?_, ?_⟩
      · rw [hk, List.drop_succ_cons, List.drop_succ_cons]
        exact hdrop
      · rw [hk, List.take_succ_cons]
        intro x hx
        rcases List.mem_cons.mp hx with rfl | hx
        · rfl
        · exact htake x hx

/-- Body of a successful encodeLSB run: when the queue fits into the
pixels, the run succeeds and the LSB stream of the output is the queue,
then zero padding up to the last written pixel, then the stream of the
untouched pixels. -/
lemma encodeGo_stream :
    ∀ (ps : List Pixel) (q : BitQueue),
      (∀ b ∈ q, b ≤ 1) → q.length ≤ 3 * ps.length →
      ∃ out, encodeLSBGo q ps = some out ∧
        lsbStream out =
          q ++ List.replicate (3 * ((q.length + 2) / 3) - q.length) 0 ++
            lsbStream (ps.drop ((q.length + 2) / 3)) := by
  intro ps
  induction ps with
  | nil =>
    intro q _ hlen
    simp only [List.length_nil, Nat.mul_zero, Nat.le_zero] at hlen
    obtain rfl : q = [] := List.length_eq_zero.mp hlen
    exact ⟨[], by simp [encodeLSBGo], by simp [lsbStream]⟩
  | cons p rest ih =>
    intro q hbits hlen
    by_cases hq0 : q.length = 0
    · obtain rfl : q = [] := List.length_eq_zero.mp hq0
      refine ⟨p :: rest, by simp [encodeLSBGo], ?_⟩
      simp
    · have hqne : q ≠ [] := fun hnil => hq0 (by simp [hnil])
      have hts := takeUpTo3_spec q hqne hbits
      have hbits' : ∀ b ∈ q.drop 3, b ≤ 1 := fun b hb =>
        hbits b (List.mem_of_mem_drop hb)
      have hlen' : (q.drop 3).length ≤ 3 * rest.length := by
        rw [List.length_drop]
        simp only [List.length_cons] at hlen
        omega
      obtain ⟨out', hout', hstream'⟩ := ih (q.drop 3) hbits' hlen'
      refine ⟨writePixel p (takeUpTo3 q).1 :: out', ?_, ?_⟩
      · simp only [encodeLSBGo, if_neg hq0]
        rw [hts]
        simp only
        rw [hout', Option.map_some']
      · have hpad : ∀ x ∈ q.take 3 ++ List.replicate (3 - q.length) 0, x ≤ 1 := by
          intro x hx
          rcases List.mem_append.mp hx with hx | hx
          · exact hbits x (List.mem_of_mem_take hx)
          · rw [List.eq_of_mem_replicate hx]
            exact Nat.zero_le 1
        have hpadlen : (q.take 3 ++ List.replicate (3 - q.length) 0).length = 3 := by
          simp [List.length_take, List.length_replicate]
          omega
        have hcons :
            lsbStream (writePixel p (takeUpTo3 q).1 :: out') =
              lsbStream [writePixel p (takeUpTo3 q).1] ++ lsbStream out' := by
          simpa using lsbStream_append [writePixel p (takeUpTo3 q).1] out'
        rw [hcons, hts]
        simp only
        rw [lsb_writePixel_list p _ hpadlen hpad, hstream']
        have hk : (q.length + 2) / 3 = ((q.drop 3).length + 2) / 3 + 1 := by
          rw [List.length_drop]
          have hq1 : 1 ≤ q.length := Nat.pos_of_ne_zero hq0
          omega
        rw [hk, List.drop_succ_cons]
        by_cases h3 : 3 ≤ q.length
        · rw [Nat.sub_eq_zero_of_le h3]
          simp only [List.replicate_zero, List.append_nil, List.length_drop]
          have hrep :
              3 * ((q.length - 3 + 2) / 3) - (q.length - 3) =
                3 * ((q.length - 3 + 2) / 3 + 1) - q.length := by
            omega
          rw [hrep]
          simp only [List.append_assoc]
          rw [← List.append_assoc (q.take 3) (q.drop 3), List.take_append_drop]
        · have htk : q.take 3 = q := List.take_of_length_le (by omega)
          have hd3 : q.drop 3 = [] := List.drop_of_length_le (by omega)
          rw [htk, hd3]
          simp only [List.length_nil, List.nil_append]
          have hz : (0 + 2) / 3 = 0 := by norm_num
          rw [hz]
          simp only [Nat.mul_zero, Nat.zero_sub, List.replicate_zero, List.nil_append,
            List.drop_zero]

/-! ### The pixel bit reader as a bit stream consumer -/

/-- Filling preserves the bit stream ahead of the reader and, when
enough pixels remain, ends with at least `n` bits queued. -/
lemma fillBits_some :
    ∀ (ps : List Pixel) (q : BitQueue) (n : Nat),
      n ≤ q.length + 3 * ps.length →
      ∃ fq, fillBits n ps q = some fq ∧
        fq.2 ++ lsbStream fq.1 = q ++ lsbStream ps ∧ n ≤ fq.2.length := by
  intro ps
  induction ps with
  | nil =>
    intro q n h
    simp only [List.length_nil, Nat.mul_zero, Nat.add_zero] at h
    exact ⟨([], q), by simp [fillBits, h], by simp [lsbStream], h⟩
  | cons p rest ih =>
    intro q n h
    by_cases hn : n ≤ q.length
    · exact ⟨(p :: rest, q), by simp [fillBits, hn], rfl, hn⟩
    · have hpush :
          BitQueue.pushBitsFromValue q (pixelBits p) 3 =
            q ++ [p.r &&& 1, p.g &&& 1, p.b &&& 1] := by
        rw [pushBitsFromValue_three, pixelBits_extract]
      have hh : n ≤ (q ++ [p.r &&& 1, p.g &&& 1, p.b &&& 1]).length + 3 * rest.length := by
        simp only [List.length_append, List.length_cons, List.length_nil,
          List.length_cons] at *
        omega
      obtain ⟨fq, hfill, hstream, hge⟩ := ih (q ++ [p.r &&& 1, p.g &&& 1, p.b &&& 1]) n hh
      refine ⟨fq, ?_, ?_, hge⟩
      · simp only [fillBits, if_neg hn, hpush]
        exact hfill
      · rw [hstream]
        simp [lsbStream]

/-- When even all remaining pixels cannot supply `n` bits, filling
fails. -/
lemma fillBits_none :
    ∀ (ps : List Pixel) (q : BitQueue) (n : Nat),
      q.length + 3 * ps.length < n → fillBits n ps q = none := by
  intro ps
  induction ps with
  | nil =>
    intro q n h
    simp only [List.length_nil, Nat.mul_zero, Nat.add_zero] at h
    simp [fillBits, Nat.not_le.mpr h]
  | cons p rest ih =>
    intro q n h
    have hn : ¬ n ≤ q.length := by
      simp only [List.length_cons] at h
      omega
    have hpush :
        BitQueue.pushBitsFromValue q (pixelBits p) 3 =
          q ++ [p.r &&& 1, p.g &&& 1, p.b &&& 1] := by
      rw [pushBitsFromValue_three, pixelBits_extract]
    simp only [fillBits, if_neg hn, hpush]
    apply ih
    simp only [List.length_append, List.length_cons, List.length_nil] at *
    omega

/-- Reader popBits success: on a reader whose queued bits are genuine
bits and for at most 32 popped bits it returns the MSB-first value of
the next `n` stream bits and advances the stream by `n` bits; the new
reader again queues only genuine bits. -/
lemma reader_popBits_some (rd : PixelBitReader) (n : Nat)
    (hq : ∀ b ∈ rd.q, b ≤ 1) (hn : n ≤ 32)
    (h : n ≤ (streamOf rd).length) :
    ∃ rd', rd.popBits n = some (bitsToNat ((streamOf rd).take n), rd') ∧
      streamOf rd' = (streamOf rd).drop n ∧ ∀ b ∈ rd'.q, b ≤ 1 := by
  have hlen : n ≤ rd.q.length + 3 * rd.pixels.length := by
    simpa [streamOf, List.length_append, lsbStream_length] using h
  obtain ⟨fq, hfill, hstream, hge⟩ := fillBits_some rd.pixels rd.q n hlen
  have hq2 : ∀ b ∈ fq.2, b ≤ 1 := by
    intro b hb
    have hmem : b ∈ fq.2 ++ lsbStream fq.1 := List.mem_append.mpr (Or.inl hb)
    rw [hstream] at hmem
    rcases List.mem_append.mp hmem with hm | hm
    · exact hq b hm
    · exact lsbStream_le_one rd.pixels b hm
  have hpop := popBits_spec fq.2 n hq2 hn hge
  refine ⟨⟨fq.1, fq.2.drop n⟩, ?_, ?_, ?_⟩
  · simp only [PixelBitReader.popBits, hfill, hpop]
    have htake : (streamOf rd).take n = fq.2.take n := by
      rw [streamOf, ← hstream, List.take_append_of_le_length hge]
    rw [htake]
  · show fq.2.drop n ++ lsbStream fq.1 = (streamOf rd).drop n
    rw [streamOf, ← hstream, List.drop_append_of_le_length hge]
  · intro b hb
    exact hq2 b (List.mem_of_mem_drop hb)

/-- Reader popBits failure: a stream shorter than `n` bits yields the
null signal. -/
lemma reader_popBits_none (rd : PixelBitReader) (n : Nat)
    (h : (streamOf rd).length < n) :
    rd.popBits n = none := by
  have hlen : rd.q.length + 3 * rd.pixels.length < n := by
    simpa [streamOf, List.length_append, lsbStream_length] using h
  simp only [PixelBitReader.popBits, fillBits_none rd.pixels rd.q n hlen]

/-- readBytes success: on a reader whose queued bits are genuine bits,
with `8 * n` bits ahead it returns the next `n` stream bytes and
advances the stream by `8 * n` bits, preserving the bit invariant. -/
lemma readBytes_some (n : Nat) :
    ∀ rd : PixelBitReader, (∀ b ∈ rd.q, b ≤ 1) → 8 * n ≤ (streamOf rd).length →
      ∃ rd', readBytes rd n = some (bytesOfBits (streamOf rd) n, rd') ∧
        streamOf rd' = (streamOf rd).drop (8 * n) ∧ ∀ b ∈ rd'.q, b ≤ 1 := by
  induction n with
  | zero =>
    intro rd hq _
    exact ⟨rd, by simp [readBytes, bytesOfBits], by simp, hq⟩
  | succ m ih =>
    intro rd hq h
    have h8 : 8 ≤ (streamOf rd).length := by omega
    obtain ⟨rd1, hpop, hs1, hq1⟩ := reader_popBits_some rd 8 hq (by omega) h8
    have hlen1 : 8 * m ≤ (streamOf rd1).length := by
      rw [hs1, List.length_drop]
      omega
    obtain ⟨rd2, hrec, hs2, hq2⟩ := ih rd1 hq1 hlen1
    refine ⟨rd2, ?_, ?_, hq2⟩
    · simp only [readBytes, PixelBitReader.popByte, hpop, hrec]
      have hbytes :
          bytesOfBits (streamOf rd) (m + 1) =
            bitsToNat ((streamOf rd).take 8) :: bytesOfBits ((streamOf rd).drop 8) m := by
        rfl
      rw [hbytes, ← hs1]
    · rw [hs2, hs1, List.drop_drop]
      have : 8 + 8 * m = 8 * (m + 1) := by ring
      rw [this]

/-- readBytes failure: on a reader whose queued bits are genuine bits,
fewer than `8 * n` bits ahead raises the truncated carrier condition. -/
lemma readBytes_none (n : Nat) :
    ∀ rd : PixelBitReader, (∀ b ∈ rd.q, b ≤ 1) →
      (streamOf rd).length < 8 * n → readBytes rd n = none := by
  induction n with
  | zero =>
    intro rd _ h
    omega
  | succ m ih =>
    intro rd hq h
    by_cases h8 : 8 ≤ (streamOf rd).length
    · obtain ⟨rd1, hpop, hs1, hq1⟩ := reader_popBits_some rd 8 hq (by omega) h8
      have hlen1 : (streamOf rd1).length < 8 * m := by
        rw [hs1, List.length_drop]
        omega
      simp only [readBytes, PixelBitReader.popByte, hpop, ih rd1 hq1 hlen1]
    · have hnone := reader_popBits_none rd 8 (by omega)
      simp only [readBytes, PixelBitReader.popByte, hnone]

/-! ### Characterization of the decoder -/

lemma decode_prelude (ps : List Pixel) (b0 b1 b2 : Nat)
    (hpeek : bytesOfBits (lsbStream ps) 7 = magicMarker ++ [b0, b1, b2]) :
    bytesOfBits (lsbStream ps) 4 = magicMarker ∧
    bytesOfBits ((lsbStream ps).drop 32) 3 = [b0, b1, b2] := by
  have hsplit := bytesOfBits_add (lsbStream ps) 4 3
  norm_num at hsplit
  rw [hsplit] at hpeek
  have hlen4 : (bytesOfBits (lsbStream ps) 4).length = magicMarker.length := by
    rw [bytesOfBits_length]
    rfl
  exact List.append_inj hpeek hlen4

/-- When the stream starts with the magic and the peeked triple passes
the modern heuristic, the decoder returns the modern frame read at byte
offset 7, or the truncated error when the carrier is too short. -/
lemma decode_modern_char (ps : List Pixel) (b0 b1 b2 : Nat)
    (hlen : 19 ≤ ps.length)
    (hpeek : bytesOfBits (lsbStream ps) 7 = magicMarker ++ [b0, b1, b2])
    (hm : modernCond b0 b1 b2) :
    (56 + 8 * ((b1 <<< 8) ||| b2) ≤ 3 * ps.length →
      decodeAddressFromImage ps =
        .ok (.modern b0 (bytesOfBits ((lsbStream ps).drop 56) ((b1 <<< 8) ||| b2)))) ∧
    (3 * ps.length < 56 + 8 * ((b1 <<< 8) ||| b2) →
      decodeAddressFromImage ps = .error .truncated) := by
  obtain ⟨hm4, hp3⟩ := decode_prelude ps b0 b1 b2 hpeek
  have hslen : (lsbStream ps).length = 3 * ps.length := lsbStream_length ps
  obtain ⟨rd1, h4, hs1, hq1⟩ := readBytes_some 4 ⟨ps, []⟩
    (by intro b hb; simp at hb) (by
    show 8 * 4 ≤ (lsbStream ps).length
    omega)
  rw [show streamOf ⟨ps, []⟩ = lsbStream ps from rfl] at h4 hs1
  rw [hm4] at h4
  obtain ⟨rd2, h3, hs2, hq2⟩ := readBytes_some 3 rd1 hq1 (by
    rw [hs1, List.length_drop]
    omega)
  rw [hs1] at h3 hs2
  rw [hp3] at h3
  rw [List.drop_drop] at hs2
  norm_num at hs2
  have hm' : (b0 = 0x00 ∨ b0 = 0x01) ∧
      (1 ≤ (b1 <<< 8) ||| b2 ∧ (b1 <<< 8) ||| b2 ≤ 2000) := hm
  constructor
  · intro hcap
    obtain ⟨rd3, hdata, _, _⟩ := readBytes_some ((b1 <<< 8) ||| b2) rd2 hq2 (by
      rw [hs2, List.length_drop]
      omega)
    rw [hs2] at hdata
    simp only [decodeAddressFromImage, h4, h3, hdata, reduceIte, if_pos hm']
    rw [if_neg (by omega)]
  · intro hcap
    have hdata := readBytes_none ((b1 <<< 8) ||| b2) rd2 hq2 (by
      rw [hs2, List.length_drop]
      omega)
    simp only [decodeAddressFromImage, h4, h3, reduceIte, if_pos hm']
    rw [if_neg (by omega)]
    simp only [hdata]

/-- When the stream starts with the magic and the peeked triple fails
the modern heuristic, the decoder takes the legacy branch with the
length given by the first two peeked bytes, reading the payload at byte
offset 6, or the truncated error when the carrier is too short. -/
lemma decode_legacy_char (ps : List Pixel) (b0 b1 b2 : Nat)
    (hlen : 19 ≤ ps.length)
    (hpeek : bytesOfBits (lsbStream ps) 7 = magicMarker ++ [b0, b1, b2])
    (hm : ¬ modernCond b0 b1 b2) :
    (48 + 8 * ((b0 <<< 8) ||| b1) ≤ 3 * ps.length →
      decodeAddressFromImage ps =
        .ok (.legacy (bytesOfBits ((lsbStream ps).drop 48) ((b0 <<< 8) ||| b1)))) ∧
    (3 * ps.length < 48 + 8 * ((b0 <<< 8) ||| b1) →
      decodeAddressFromImage ps = .error .truncated) := by
  obtain ⟨hm4, hp3⟩ := decode_prelude ps b0 b1 b2 hpeek
  have hslen : (lsbStream ps).length = 3 * ps.length := lsbStream_length ps
  obtain ⟨rd1, h4, hs1, hq1⟩ := readBytes_some 4 ⟨ps, []⟩
    (by intro b hb; simp at hb) (by
    show 8 * 4 ≤ (lsbStream ps).length
    omega)
  rw [show streamOf ⟨ps, []⟩ = lsbStream ps from rfl] at h4 hs1
  rw [hm4] at h4
  obtain ⟨rd2, h3, hs2, _⟩ := readBytes_some 3 rd1 hq1 (by
    rw [hs1, List.length_drop]
    omega)
  rw [hs1] at h3 hs2
  rw [hp3] at h3
  obtain ⟨rd2b, h2, hs2b, hq2b⟩ := readBytes_some 2 rd1 hq1 (by
    rw [hs1, List.length_drop]
    omega)
  rw [hs1] at hs2b
  rw [List.drop_drop] at hs2b
  norm_num at hs2b
  have hm' : ¬ ((b0 = 0x00 ∨ b0 = 0x01) ∧
      (1 ≤ (b1 <<< 8) ||| b2 ∧ (b1 <<< 8) ||| b2 ≤ 2000)) := hm
  constructor
  · intro hcap
    obtain ⟨rd3, hdata, _, _⟩ := readBytes_some ((b0 <<< 8) ||| b1) rd2b hq2b (by
      rw [hs2b, List.length_drop]
      omega)
    rw [hs2b] at hdata
    simp only [decodeAddressFromImage, h4, h3, h2, reduceIte, if_neg hm', hdata]
  · intro hcap
    have hdata := readBytes_none ((b0 <<< 8) ||| b1) rd2b hq2b (by
      rw [hs2b, List.length_drop]
      omega)
    simp only [decodeAddressFromImage, h4, h3, h2, reduceIte, if_neg hm', hdata]

/-- The MSB-first accumulator over genuine bits stays below the power
of two given by the number of accumulated bits. -/
lemma foldl_bits_lt :
    ∀ (l : List Nat) (out : Nat), (∀ b ∈ l, b ≤ 1) →
      l.foldl (fun o b => (o <<< 1) ||| b) out < (out + 1) * 2 ^ l.length := by
  intro l
  induction l with
  | nil =>
    intro out _
    simp
  | cons b t ih =>
    intro out hb
    have hb0 : b ≤ 1 := hb b (by simp)
    have hbt : ∀ x ∈ t, x ≤ 1 := fun x hx => hb x (by simp [hx])
    have hshift : out <<< 1 = 2 * out := by
      rw [Nat.shiftLeft_eq]
      ring
    have hstep : (out <<< 1) ||| b ≤ 2 * out + 1 := by
      interval_cases b
      · rw [Nat.or_zero, hshift]
        omega
      · have hor := Nat.mul_add_lt_is_or (show (1 : Nat) < 2 ^ 1 by norm_num) out
        norm_num at hor
        rw [hshift, ← hor]
    have hrec := ih ((out <<< 1) ||| b) hbt
    simp only [List.foldl_cons, List.length_cons]
    calc List.foldl (fun o b => (o <<< 1) ||| b) ((out <<< 1) ||| b) t
        < (((out <<< 1) ||| b) + 1) * 2 ^ t.length := hrec
      _ ≤ (2 * out + 2) * 2 ^ t.length := by
          have : ((out <<< 1) ||| b) + 1 ≤ 2 * out + 2 := by omega
          exact Nat.mul_le_mul_right _ this
      _ = (out + 1) * 2 ^ (t.length + 1) := by ring

/-- On genuine bits the MSB-first value of a list is below 2 to its
length. -/
lemma bitsToNat_lt_two_pow (l : List Nat) (hb : ∀ b ∈ l, b ≤ 1) :
    bitsToNat l < 2 ^ l.length := by
  have h := foldl_bits_lt l 0 hb
  simpa [bitsToNat] using h

/-! ### The claims -/

/-- C8 counterexample: the popBits accumulator is updated with the
JavaScript expression `out = (out << 1) | bit`, whose bitwise operators
coerce to signed 32-bit integers; popping 32 queued one-bits therefore
produces the bit pattern 2^32 - 1 whose value as a JavaScript number is
-1, not the unsigned MSB-first integer 4294967295 that the claim
promises for every n. -/
theorem c8_popBits_counterexample :
    BitQueue.popBits (List.replicate 32 1) 32 = some (4294967295, []) ∧
    bitsToNat (List.replicate 32 1) = 4294967295 ∧
    int32OfPattern 4294967295 = -1 ∧
    int32OfPattern 4294967295 ≠ (4294967295 : Int) :=
  ⟨by decide, by decide, by decide, by decide⟩

/-- C8 amended: for at most 31 popped bits, so that the 32-bit signed
accumulator can neither wrap nor go negative, popBits removes the next
`n` bits of a bit queue in FIFO order and returns them as the unsigned
integer whose most significant bit is the first popped bit, that
integer also being the value of the returned JavaScript number; and for
every `n` it returns the explicit insufficient signal (null, not an
exception) when fewer than `n` bits remain. -/
theorem c8_popBits_contract_amended (q : BitQueue) (n : Nat) :
    ((∀ b ∈ q, b ≤ 1) → n ≤ 31 → n ≤ q.length →
      BitQueue.popBits q n = some (bitsToNat (q.take n), q.drop n) ∧
      int32OfPattern (bitsToNat (q.take n)) = (bitsToNat (q.take n) : Int)) ∧
    (q.length < n → BitQueue.popBits q n = none) := by
  constructor
  · intro hbits hn hl
    refine ⟨popBits_spec q n hbits (by omega) hl, ?_⟩
    have hlt : bitsToNat (q.take n) < 2 ^ (q.take n).length :=
      bitsToNat_lt_two_pow _ (fun b hb => hbits b (List.mem_of_mem_take hb))
    have hlen : (q.take n).length ≤ 31 := by
      rw [List.length_take]
      omega
    have hsmall : bitsToNat (q.take n) < 2147483648 := by
      calc bitsToNat (q.take n) < 2 ^ (q.take n).length := hlt
        _ ≤ 2 ^ 31 := Nat.pow_le_pow_right (by omega) hlen
        _ = 2147483648 := by norm_num
    simp [int32OfPattern, hsmall]
  · exact popBits_none q n

theorem c8_popBits_contract_amended_witness :
    (BitQueue.popBits [1, 0, 1, 1] 3 = some (bitsToNat [1, 0, 1], [1]) ∧
      int32OfPattern (bitsToNat [1, 0, 1]) = (bitsToNat [1, 0, 1] : Int)) ∧
    BitQueue.popBits [1, 0, 1, 1] 5 = none :=
  ⟨(c8_popBits_contract_amended [1, 0, 1, 1] 3).1 (by decide) (by decide) (by decide),
   (c8_popBits_contract_amended [1, 0, 1, 1] 5).2 (by decide)⟩

/-- C7: a successful encodeLSB run modifies only the first
ceil(8 * len(dataBytes) / 3) pixels; the output keeps the pixel count
and every pixel after the embedded data is exactly the input pixel,
all four channels included. -/
theorem c7_frame_effect (pixels : List Pixel) (dataBytes : List Nat) (out : List Pixel)
    (h : encodeLSB pixels dataBytes = some out) :
    out.length = pixels.length ∧
    out.drop ((8 * dataBytes.length + 2) / 3) =
      pixels.drop ((8 * dataBytes.length + 2) / 3) := by
  unfold encodeLSB at h
  rw [foldl_pushByte] at h
  simp only [List.nil_append] at h
  have hs := encodeGo_shape pixels (bytesBits dataBytes) out (bytesBits_le_one dataBytes) h
  rw [bytesBits_length] at hs
  exact ⟨hs.1, hs.2.1⟩

theorem c7_frame_effect_witness :
    ((encodeLSB (List.replicate 5 (Pixel.mk 10 20 30 40)) [171]).getD []).length = 5 ∧
    ((encodeLSB (List.replicate 5 (Pixel.mk 10 20 30 40)) [171]).getD []).drop 3 =
      (List.replicate 5 (Pixel.mk 10 20 30 40)).drop 3 := by
  have h := c7_frame_effect (List.replicate 5 (Pixel.mk 10 20 30 40)) [171]
    ((encodeLSB (List.replicate 5 (Pixel.mk 10 20 30 40)) [171]).getD []) (by decide)
  norm_num at h
  exact h

/-- C9: under the capacity precondition checked by encodeAddressInImage,
3 * totalPixels >= 8 * len(dataBytes), the encodeLSB loop never reaches
its in-loop Image too small for data failure. -/
theorem c9_capacity_error_unreachable (pixels : List Pixel) (dataBytes : List Nat)
    (h : 8 * dataBytes.length ≤ 3 * pixels.length) :
    ∃ out, encodeLSB pixels dataBytes = some out := by
  unfold encodeLSB
  rw [foldl_pushByte]
  simp only [List.nil_append]
  obtain ⟨out, hout, _⟩ := encodeGo_stream pixels (bytesBits dataBytes)
    (bytesBits_le_one dataBytes) (by rw [bytesBits_length]; omega)
  exact ⟨out, hout⟩

theorem c9_capacity_error_unreachable_witness :
    ∃ out, encodeLSB (List.replicate 3 (Pixel.mk 0 0 0 0)) [7] = some out :=
  c9_capacity_error_unreachable (List.replicate 3 (Pixel.mk 0 0 0 0)) [7] (by decide)

/-- C5 counterexample: a successful encodeLSB run on a carrier with a
transparent pixel beyond the embedded data leaves that alpha channel
untouched, so not every pixel of the buffer ends with alpha 255. -/
theorem c5_alpha_counterexample :
    encodeLSB (List.replicate 4 (Pixel.mk 0 0 0 7)) [65] =
      some [⟨0, 1, 0, 255⟩, ⟨0, 0, 0, 255⟩, ⟨0, 1, 0, 255⟩, ⟨0, 0, 0, 7⟩] ∧
    (Pixel.mk 0 0 0 7).a ≠ 255 :=
  ⟨by decide, by decide⟩

/-- C5 amended: after a successful encode every pixel that carries
embedded data has alpha 255, and the pixels beyond are left unchanged;
hence every pixel of the buffer has alpha 255 exactly when the carrier
was already fully opaque before the encode (which the white-background
compositing step of the browser pipeline establishes). -/
theorem c5_alpha_amended (pixels : List Pixel) (dataBytes : List Nat) (out : List Pixel)
    (h : encodeLSB pixels dataBytes = some out) :
    (∀ p ∈ out.take ((8 * dataBytes.length + 2) / 3), p.a = 255) ∧
    ((∀ p ∈ pixels, p.a = 255) → ∀ p ∈ out, p.a = 255) := by
  unfold encodeLSB at h
  rw [foldl_pushByte] at h
  simp only [List.nil_append] at h
  have hs := encodeGo_shape pixels (bytesBits dataBytes) out (bytesBits_le_one dataBytes) h
  rw [bytesBits_length] at hs
  obtain ⟨hlen, hdrop, htake⟩ := hs
  refine ⟨htake, ?_⟩
  intro hall p hp
  rw [← List.take_append_drop ((8 * dataBytes.length + 2) / 3) out] at hp
  rcases List.mem_append.mp hp with hp | hp
  · exact htake p hp
  · rw [hdrop] at hp
    exact hall p (List.mem_of_mem_drop hp)

theorem c5_alpha_amended_witness :
    (∀ p ∈ ((encodeLSB (List.replicate 4 (Pixel.mk 0 0 0 255)) [66]).getD []).take 3,
      p.a = 255) ∧
    (∀ p ∈ (encodeLSB (List.replicate 4 (Pixel.mk 0 0 0 255)) [66]).getD [], p.a = 255) := by
  have h := c5_alpha_amended (List.replicate 4 (Pixel.mk 0 0 0 255)) [66]
    ((encodeLSB (List.replicate 4 (Pixel.mk 0 0 0 255)) [66]).getD []) (by decide)
  have hop : ∀ p ∈ List.replicate 4 (Pixel.mk 0 0 0 255), p.a = 255 := by decide
  refine ⟨?_, h.2 hop⟩
  have h1 := h.1
  norm_num at h1
  exact h1

/-- C3: with pixelsNeeded(L) = ceil((4 + 1 + 2 + L) * 8 / 3), encoding
into a carrier one pixel short fails with the carrier too small error
(raised by the capacity check that runs before any pixel is written),
and encoding into a carrier of exactly pixelsNeeded(L) pixels
succeeds. -/
theorem c3_capacity_boundary (typeTag : Nat) (payload : List Nat)
    (small large : List Pixel)
    (hsmall : small.length = pixelsNeeded payload.length - 1)
    (hlarge : large.length = pixelsNeeded payload.length) :
    encodeAddressInImage small typeTag payload = .error .carrierTooSmall ∧
    ∃ out, encodeAddressInImage large typeTag payload = .ok out := by
  have hfull : (buildFrame typeTag payload).length = 7 + payload.length := by
    simp [buildFrame, magicMarker]
    omega
  have hpx : pixelsNeeded payload.length = ((7 + payload.length) * 8 + 2) / 3 := by
    unfold pixelsNeeded
    norm_num
  constructor
  · simp only [encodeAddressInImage, hfull]
    rw [if_pos (by omega)]
  · simp only [encodeAddressInImage, hfull]
    rw [if_neg (by omega)]
    have hqbound : (bytesBits (buildFrame typeTag payload)).length ≤ 3 * large.length := by
      rw [bytesBits_length, hfull]
      omega
    obtain ⟨out, hout, _⟩ := encodeGo_stream large (bytesBits (buildFrame typeTag payload))
      (bytesBits_le_one _) hqbound
    unfold encodeLSB
    rw [foldl_pushByte]
    simp only [List.nil_append]
    rw [hout]
    exact ⟨out, rfl⟩

theorem c3_capacity_boundary_witness :
    encodeAddressInImage (List.replicate 21 (Pixel.mk 9 9 9 9)) 0 [65] =
      .error .carrierTooSmall ∧
    ∃ out, encodeAddressInImage (List.replicate 22 (Pixel.mk 9 9 9 9)) 0 [65] = .ok out :=
  c3_capacity_boundary 0 [65] (List.replicate 21 (Pixel.mk 9 9 9 9))
    (List.replicate 22 (Pixel.mk 9 9 9 9)) (by decide) (by decide)

/-- C6: a carrier whose first pixels do not spell the magic bytes
44 4F 47 45 in their LSBs is rejected with the magic marker not found
error, regardless of the remaining buffer content. -/
theorem c6_magic_rejection (pixels : List Pixel)
    (hlen : 12 ≤ pixels.length)
    (hmagic : bytesOfBits (lsbStream pixels) 4 ≠ magicMarker) :
    decodeAddressFromImage pixels = .error .magicNotFound := by
  have hslen : (lsbStream pixels).length = 3 * pixels.length := lsbStream_length pixels
  obtain ⟨rd1, h4, _, _⟩ := readBytes_some 4 ⟨pixels, []⟩
    (by intro b hb; simp at hb) (by
    show 8 * 4 ≤ (streamOf ⟨pixels, []⟩).length
    show 8 * 4 ≤ (lsbStream pixels).length
    omega)
  rw [show streamOf ⟨pixels, []⟩ = lsbStream pixels from rfl] at h4
  simp only [decodeAddressFromImage, h4]
  rw [if_neg hmagic]

theorem c6_magic_rejection_witness :
    decodeAddressFromImage (List.replicate 12 (Pixel.mk 0 0 0 0)) = .error .magicNotFound :=
  c6_magic_rejection (List.replicate 12 (Pixel.mk 0 0 0 0)) (by decide) (by decide)

/-- C1: round trip of the modern frame: embedding
MAGIC(4), typeTag, 2 big-endian length bytes, payload via encodeLSB into
a carrier of at least pixelsNeeded(len(payload)) pixels and then running
the frame parsing of decodeAddressFromImage classifies the stream as
modern and recovers exactly the type tag and the payload bytes. -/
theorem c1_modern_roundtrip (typeTag : Nat) (payload : List Nat) (pixels : List Pixel)
    (htag : typeTag = 0x00 ∨ typeTag = 0x01)
    (hlo : 1 ≤ payload.length) (hhi : payload.length ≤ 2000)
    (hbytes : ∀ b ∈ payload, b < 256)
    (hcap : pixelsNeeded payload.length ≤ pixels.length) :
    ∃ out, encodeLSB pixels (buildFrame typeTag payload) = some out ∧
      decodeAddressFromImage out = .ok (.modern typeTag payload) := by
  have hpx : pixelsNeeded payload.length = ((7 + payload.length) * 8 + 2) / 3 := by
    unfold pixelsNeeded
    norm_num
  have hsplit : buildFrame typeTag payload =
      (magicMarker ++
        [typeTag, (payload.length >>> 8) &&& 0xFF, payload.length &&& 0xFF]) ++ payload := by
    simp [buildFrame, List.append_assoc]
  have hhead7 : (magicMarker ++
      [typeTag, (payload.length >>> 8) &&& 0xFF, payload.length &&& 0xFF]).length = 7 := by
    simp [magicMarker]
  have hflen : (buildFrame typeTag payload).length = 7 + payload.length := by
    rw [hsplit, List.length_append, hhead7]
  have hfbytes : ∀ b ∈ buildFrame typeTag payload, b < 256 := by
    intro b hb
    rw [hsplit] at hb
    rcases List.mem_append.mp hb with hb | hb
    · rcases List.mem_append.mp hb with hb | hb
      · simp only [magicMarker, List.mem_cons, List.not_mem_nil, or_false] at hb
        rcases hb with rfl | rfl | rfl | rfl <;> omega
      · simp only [List.mem_cons, List.not_mem_nil, or_false] at hb
        have hand1 : (payload.length >>> 8) &&& 0xFF ≤ 0xFF := Nat.and_le_right
        have hand2 : payload.length &&& 0xFF ≤ 0xFF := Nat.and_le_right
        rcases hb with rfl | rfl | rfl
        · rcases htag with rfl | rfl <;> omega
        · omega
        · omega
    · exact hbytes b hb
  obtain ⟨out, hout, hstream⟩ :=
    encodeGo_stream pixels (bytesBits (buildFrame typeTag payload))
      (bytesBits_le_one _) (by rw [bytesBits_length, hflen]; omega)
  rw [List.append_assoc] at hstream
  have houtlen : out.length = pixels.length :=
    (encodeGo_shape pixels (bytesBits (buildFrame typeTag payload)) out
      (bytesBits_le_one _) hout).1
  have hlen19 : 19 ≤ out.length := by
    rw [houtlen]
    omega
  have hlen16 := len16_roundtrip payload.length (by omega)
  have hpeek : bytesOfBits (lsbStream out) 7 =
      magicMarker ++
        [typeTag, (payload.length >>> 8) &&& 0xFF, payload.length &&& 0xFF] := by
    rw [hstream]
    rw [bytesOfBits_bytesBits (buildFrame typeTag payload) 7 _ (by rw [hflen]; omega) hfbytes]
    rw [hsplit]
    exact List.take_left' hhead7
  have hmodern : modernCond typeTag
      ((payload.length >>> 8) &&& 0xFF) (payload.length &&& 0xFF) := by
    refine ⟨htag, ?_, ?_⟩ <;> rw [hlen16] <;> omega
  have hcap56 : 56 + 8 * ((((payload.length >>> 8) &&& 0xFF) <<< 8) |||
      (payload.length &&& 0xFF)) ≤ 3 * out.length := by
    rw [hlen16, houtlen]
    omega
  have hd := (decode_modern_char out typeTag
    ((payload.length >>> 8) &&& 0xFF) (payload.length &&& 0xFF)
    hlen19 hpeek hmodern).1 hcap56
  rw [hlen16] at hd
  have hdrop56 : (lsbStream out).drop 56 =
      bytesBits payload ++
        (List.replicate
          (3 * (((bytesBits (buildFrame typeTag payload)).length + 2) / 3) -
            (bytesBits (buildFrame typeTag payload)).length) 0 ++
          lsbStream (pixels.drop
            (((bytesBits (buildFrame typeTag payload)).length + 2) / 3))) := by
    rw [hstream]
    have hdb := bytesBits_drop_bytes (buildFrame typeTag payload) 7
      (List.replicate
        (3 * (((bytesBits (buildFrame typeTag payload)).length + 2) / 3) -
          (bytesBits (buildFrame typeTag payload)).length) 0 ++
        lsbStream (pixels.drop
          (((bytesBits (buildFrame typeTag payload)).length + 2) / 3)))
      (by rw [hflen]; omega)
    simp only [show (8 * 7 : Nat) = 56 by norm_num] at hdb
    rw [hdb, hsplit, List.drop_left' hhead7]
  rw [hdrop56] at hd
  rw [bytesOfBits_bytesBits payload payload.length
    (List.replicate
      (3 * (((bytesBits (buildFrame typeTag payload)).length + 2) / 3) -
        (bytesBits (buildFrame typeTag payload)).length) 0 ++
      lsbStream (pixels.drop
        (((bytesBits (buildFrame typeTag payload)).length + 2) / 3)))
    (Nat.le_refl _) hbytes] at hd
  rw [List.take_length] at hd
  refine ⟨out, ?_, hd⟩
  unfold encodeLSB
  rw [foldl_pushByte]
  simpa using hout

theorem c1_modern_roundtrip_witness :
    ∃ out, encodeLSB (List.replicate 27 (Pixel.mk 0 0 0 0)) (buildFrame 1 [26, 43, 60]) =
        some out ∧
      decodeAddressFromImage out = .ok (.modern 1 [26, 43, 60]) :=
  c1_modern_roundtrip 1 [26, 43, 60] (List.replicate 27 (Pixel.mk 0 0 0 0))
    (by decide) (by decide) (by decide) (by decide) (by decide)

/-- C2: dual-format classification: on a buffer whose stream starts
with the magic followed by the peeked bytes b0, b1, b2, the decoder
classifies the stream as modern exactly when b0 is 0 or 1 and the
big-endian value of (b1, b2) lies in 1..2000, continuing with typeTag
b0 and that length at byte offset 7; in every other case it classifies
the stream as legacy with length (b0 <<< 8) ||| b1 read at byte
offset 6. -/
theorem c2_classification (ps : List Pixel) (b0 b1 b2 : Nat)
    (hlen : 19 ≤ ps.length)
    (hpeek : bytesOfBits (lsbStream ps) 7 = magicMarker ++ [b0, b1, b2]) :
    (modernCond b0 b1 b2 →
      (56 + 8 * ((b1 <<< 8) ||| b2) ≤ 3 * ps.length →
        decodeAddressFromImage ps =
          .ok (.modern b0 (bytesOfBits ((lsbStream ps).drop 56) ((b1 <<< 8) ||| b2)))) ∧
      (3 * ps.length < 56 + 8 * ((b1 <<< 8) ||| b2) →
        decodeAddressFromImage ps = .error .truncated)) ∧
    (¬ modernCond b0 b1 b2 →
      (48 + 8 * ((b0 <<< 8) ||| b1) ≤ 3 * ps.length →
        decodeAddressFromImage ps =
          .ok (.legacy (bytesOfBits ((lsbStream ps).drop 48) ((b0 <<< 8) ||| b1)))) ∧
      (3 * ps.length < 48 + 8 * ((b0 <<< 8) ||| b1) →
        decodeAddressFromImage ps = .error .truncated)) :=
  ⟨fun hm => decode_modern_char ps b0 b1 b2 hlen hpeek hm,
   fun hm => decode_legacy_char ps b0 b1 b2 hlen hpeek hm⟩

theorem c2_classification_witness :
    decodeAddressFromImage
      ((encodeLSB (List.replicate 19 (Pixel.mk 0 0 0 0)) (magicMarker ++ [0, 0, 1])).getD []) =
        .error .truncated :=
  ((c2_classification
      ((encodeLSB (List.replicate 19 (Pixel.mk 0 0 0 0)) (magicMarker ++ [0, 0, 1])).getD [])
      0 0 1 (by decide) (by decide)).1 (by decide)).2 (by decide)

/-- C4: legacy compatibility: a legacy frame MAGIC(4), 2 big-endian
length bytes, payload whose peeked triple fails the modern heuristic is
decoded through the legacy branch by a third fresh cursor advanced past
magic and length, recovering exactly the original payload bytes. -/
theorem c4_legacy_roundtrip (payload : List Nat) (pixels : List Pixel)
    (hlo : 1 ≤ payload.length) (hhi : payload.length ≤ 65535)
    (hbytes : ∀ b ∈ payload, b < 256)
    (hm : ¬ modernCond ((payload.length >>> 8) &&& 0xFF)
      (payload.length &&& 0xFF) payload.headI)
    (hcap : ((6 + payload.length) * 8 + 2) / 3 ≤ pixels.length) :
    ∃ out, encodeLSB pixels
        (magicMarker ++
          [(payload.length >>> 8) &&& 0xFF, payload.length &&& 0xFF] ++ payload) =
        some out ∧
      decodeAddressFromImage out = .ok (.legacy payload) := by
  obtain ⟨p0, prest, rfl⟩ : ∃ p0 prest, payload = p0 :: prest := by
    cases payload with
    | nil => simp at hlo
    | cons a t => exact ⟨a, t, rfl⟩
  set payload := p0 :: prest with hpay
  set hi := (payload.length >>> 8) &&& 0xFF with hhi8
  set lo := payload.length &&& 0xFF with hlo8
  have hsplit : magicMarker ++ [hi, lo] ++ payload =
      (magicMarker ++ [hi, lo]) ++ payload := by
    simp [List.append_assoc]
  have hhead6 : (magicMarker ++ [hi, lo]).length = 6 := by
    simp [magicMarker]
  have hflen : (magicMarker ++ [hi, lo] ++ payload).length = 6 + payload.length := by
    rw [hsplit, List.length_append, hhead6]
  have hfbytes : ∀ b ∈ magicMarker ++ [hi, lo] ++ payload, b < 256 := by
    intro b hb
    rw [hsplit] at hb
    rcases List.mem_append.mp hb with hb | hb
    · rcases List.mem_append.mp hb with hb | hb
      · simp only [magicMarker, List.mem_cons, List.not_mem_nil, or_false] at hb
        rcases hb with rfl | rfl | rfl | rfl <;> omega
      · simp only [List.mem_cons, List.not_mem_nil, or_false] at hb
        have hand1 : hi ≤ 0xFF := Nat.and_le_right
        have hand2 : lo ≤ 0xFF := Nat.and_le_right
        rcases hb with rfl | rfl <;> omega
    · exact hbytes b hb
  obtain ⟨out, hout, hstream⟩ :=
    encodeGo_stream pixels (bytesBits (magicMarker ++ [hi, lo] ++ payload))
      (bytesBits_le_one _) (by rw [bytesBits_length, hflen]; omega)
  rw [List.append_assoc] at hstream
  have houtlen : out.length = pixels.length :=
    (encodeGo_shape pixels (bytesBits (magicMarker ++ [hi, lo] ++ payload)) out
      (bytesBits_le_one _) hout).1
  have hlen19 : 19 ≤ out.length := by
    rw [houtlen]
    omega
  have hlen16 := len16_roundtrip payload.length (by omega)
  have htake7 : (magicMarker ++ [hi, lo] ++ payload).take 7 =
      magicMarker ++ [hi, lo, p0] := by
    rw [hsplit, List.take_append_eq_append_take]
    rw [List.take_of_length_le (by rw [hhead6]; omega), hhead6]
    simp [magicMarker, hpay]
  have hpeek : bytesOfBits (lsbStream out) 7 = magicMarker ++ [hi, lo, p0] := by
    rw [hstream]
    rw [bytesOfBits_bytesBits (magicMarker ++ [hi, lo] ++ payload) 7 _
      (by rw [hflen]; omega) hfbytes]
    exact htake7
  have hm' : ¬ modernCond hi lo p0 := by
    simpa [hpay] using hm
  have hcap48 : 48 + 8 * ((hi <<< 8) ||| lo) ≤ 3 * out.length := by
    rw [hhi8, hlo8, hlen16, houtlen]
    omega
  have hd := (decode_legacy_char out hi lo p0 hlen19 hpeek hm').1 hcap48
  rw [hhi8, hlo8, hlen16] at hd
  have hdrop48 : (lsbStream out).drop 48 =
      bytesBits payload ++
        (List.replicate
          (3 * (((bytesBits (magicMarker ++ [hi, lo] ++ payload)).length + 2) / 3) -
            (bytesBits (magicMarker ++ [hi, lo] ++ payload)).length) 0 ++
          lsbStream (pixels.drop
            (((bytesBits (magicMarker ++ [hi, lo] ++ payload)).length + 2) / 3))) := by
    rw [hstream]
    have hdb := bytesBits_drop_bytes (magicMarker ++ [hi, lo] ++ payload) 6
      (List.replicate
        (3 * (((bytesBits (magicMarker ++ [hi, lo] ++ payload)).length + 2) / 3) -
          (bytesBits (magicMarker ++ [hi, lo] ++ payload)).length) 0 ++
        lsbStream (pixels.drop
          (((bytesBits (magicMarker ++ [hi, lo] ++ payload)).length + 2) / 3)))
      (by rw [hflen]; omega)
    simp only [show (8 * 6 : Nat) = 48 by norm_num] at hdb
    rw [hdb, hsplit, List.drop_left' hhead6]
  rw [hdrop48] at hd
  rw [bytesOfBits_bytesBits payload payload.length
    (List.replicate
      (3 * (((bytesBits (magicMarker ++ [hi, lo] ++ payload)).length + 2) / 3) -
        (bytesBits (magicMarker ++ [hi, lo] ++ payload)).length) 0 ++
      lsbStream (pixels.drop
        (((bytesBits (magicMarker ++ [hi, lo] ++ payload)).length + 2) / 3)))
    (Nat.le_refl _) hbytes] at hd
  rw [List.take_length] at hd
  refine ⟨out, ?_, hd⟩
  unfold encodeLSB
  rw [foldl_pushByte]
  simpa using hout

theorem c4_legacy_roundtrip_witness :
    ∃ out, encodeLSB (List.replicate 107 (Pixel.mk 0 0 0 0))
        (magicMarker ++ [0, 34] ++ List.replicate 34 65) = some out ∧
      decodeAddressFromImage out = .ok (.legacy (List.replicate 34 65)) := by
  have h := c4_legacy_roundtrip (List.replicate 34 65) (List.replicate 107 (Pixel.mk 0 0 0 0))
    (by decide) (by decide) (by decide) (by decide) (by decide)
  simpa using h

/-- C10: in the legacy branch the length from the two peeked bytes is
accepted without any range check: a legacy length of 0 makes decode
succeed with an empty payload, and an oversized length fails only with
the truncated carrier error from readBytes, never with the invalid
length error. -/
theorem c10_legacy_length_unchecked (ps : List Pixel) (b0 b1 b2 : Nat)
    (hlen : 19 ≤ ps.length)
    (hpeek : bytesOfBits (lsbStream ps) 7 = magicMarker ++ [b0, b1, b2])
    (hm : ¬ modernCond b0 b1 b2) :
    (48 + 8 * ((b0 <<< 8) ||| b1) ≤ 3 * ps.length →
      decodeAddressFromImage ps =
        .ok (.legacy (bytesOfBits ((lsbStream ps).drop 48) ((b0 <<< 8) ||| b1)))) ∧
    (3 * ps.length < 48 + 8 * ((b0 <<< 8) ||| b1) →
      decodeAddressFromImage ps = .error .truncated) ∧
    (((b0 <<< 8) ||| b1) = 0 → decodeAddressFromImage ps = .ok (.legacy [])) := by
  obtain ⟨h1, h2⟩ := decode_legacy_char ps b0 b1 b2 hlen hpeek hm
  refine ⟨h1, h2, fun hz => ?_⟩
  have := h1 (by rw [hz]; omega)
  rw [hz] at this
  simpa [bytesOfBits] using this

theorem c10_legacy_length_unchecked_witness :
    decodeAddressFromImage
      ((encodeLSB (List.replicate 19 (Pixel.mk 0 0 0 0)) (magicMarker ++ [0, 0, 0])).getD []) =
        .ok (.legacy []) :=
  (c10_legacy_length_unchecked
      ((encodeLSB (List.replicate 19 (Pixel.mk 0 0 0 0)) (magicMarker ++ [0, 0, 0])).getD [])
      0 0 0 (by decide) (by decide) (by decide)).2.2 (by decide)

end DIBAN
